import Mathlib

/-!
Verification development for the command-parsing, rule-evaluation and
in-memory data-access core of the cog2/gort repository.

Each source function is shallowly embedded as an executable Lean
definition; stateful Go code (the in-memory store) is embedded with
explicit state passing.  Go maps are embedded either as association
lists (where iteration order matters) or as functions into Option
(where only lookup is observable).  Machine integers do not overflow in
any of the embedded code paths, so Nat and Int are used directly.
-/

namespace Cog2

/-! ## Values and value inference (types package)

The types package is not among the provided sources; the command parser
consumes it only through Inferrer with ComplexTypes=false and
StrictStrings=false.  The definitions in this section are modelled from
the specification of value inference (priority order: regex literal,
int, float, bool, string with quote stripping).  List and map variants
can only be produced with ComplexTypes=true and therefore never occur
here; float and regex values carry their source text, since no claim
compares them.
-/

/-- Modelled from the spec: the tagged Value variant (types.Value). -/
inductive Value where
  | str : String → Value
  | int : Int → Value
  | float : String → Value
  | bool : Bool → Value
  | regex : String → Value
deriving DecidableEq

/-- Numeric value of a list of decimal digit characters. -/
def digitsVal (ds : List Char) : Nat :=
  ds.foldl (fun n c => n * 10 + (c.toNat - 48)) 0

/-- Modelled from the spec: recognizer and value of the integer pattern
with an optional leading minus sign followed by one or more digits. -/
def intLit? (s : String) : Option Int :=
  match s.data with
  | [] => none
  | '-' :: ds =>
    if ds ≠ [] ∧ ds.all Char.isDigit then some (-(digitsVal ds : Int)) else none
  | ds =>
    if ds ≠ [] ∧ ds.all Char.isDigit then some ((digitsVal ds : Int)) else none

/-- Longest digit prefix of a character list, together with the rest. -/
def splitDigits : List Char → List Char × List Char
  | [] => ([], [])
  | c :: cs =>
    if c.isDigit then
      let p := splitDigits cs
      (c :: p.1, p.2)
    else ([], c :: cs)

/-- Modelled from the spec: recognizer for an exponent part, i.e. an e
or E, an optional sign, and one or more digits ending the token. -/
def expOk : List Char → Bool
  | [] => false
  | e :: rest =>
    if e = 'e' ∨ e = 'E' then
      let rest2 := match rest with
        | s :: r => if s = '+' ∨ s = '-' then r else s :: r
        | [] => []
      let p := splitDigits rest2
      !p.1.isEmpty && p.2.isEmpty
    else false

/-- Modelled from the spec: recognizer for the float patterns, digits
with a fractional part, or digits with an optional fractional part and
a mandatory exponent, optionally preceded by a minus sign. -/
def isFloatStr (s : String) : Bool :=
  let l := match s.data with
    | '-' :: cs => cs
    | cs => cs
  let p1 := splitDigits l
  if p1.1.isEmpty then false
  else match p1.2 with
    | [] => false
    | '.' :: r2 =>
      let p2 := splitDigits r2
      if p2.1.isEmpty then false
      else p2.2.isEmpty || expOk p2.2
    | r => expOk r

/-- Case-insensitive comparison of a character list against an
all-lowercase ASCII pattern. -/
def matchesIgnoreCase : List Char → List Char → Bool
  | [], [] => true
  | c :: cs, l :: ls =>
    (c = l ∨ (c.toNat + 32 = l.toNat ∧ 65 ≤ c.toNat ∧ c.toNat ≤ 90))
      && matchesIgnoreCase cs ls
  | _, _ => false

/-- Modelled from the spec: case-insensitive recognizer for the boolean
literals. -/
def boolLit? (s : String) : Option Bool :=
  if matchesIgnoreCase s.data "true".data then some true
  else if matchesIgnoreCase s.data "false".data then some false
  else none

/-- Modelled from the spec: a token enclosed in matching slashes is a
regex literal. -/
def isRegexTok (s : String) : Bool :=
  match s.data with
  | '/' :: c :: cs => (c :: cs).getLast? == some '/'
  | _ => false

/-- Text between the first and last character of a token. -/
def innerOf (s : String) : String :=
  String.mk ((s.data.drop 1).dropLast)

/-- Strips one pair of matching surrounding quotes, if present. -/
def stripQuotes (s : String) : String :=
  match s.data with
  | c :: d :: ds =>
    if (c = '"' ∨ c = '\'') ∧ (d :: ds).getLast? = some c then
      String.mk ((d :: ds).dropLast)
    else s
  | _ => s

/-- Modelled from the spec: value inference with ComplexTypes=false and
StrictStrings=false, exactly the configuration the command parser uses.
Priority order: regex literal, int, float, bool, bare string with quote
stripping.  Regex validity is not modelled (no claim exercises it). -/
def infer (t : String) : Value :=
  if isRegexTok t then .regex (innerOf t)
  else match intLit? t with
  | some n => .int n
  | none =>
    if isFloatStr t then .float t
    else match boolLit? t with
    | some b => .bool b
    | none => .str (stripQuotes t)

/-- Embeds Inferrer.InferAll: inference of every token of a list. -/
def inferAll (ts : List String) : List Value := ts.map infer

/-! ## Command parsing (command/command.go) -/

/-- Embeds command.CommandOption. -/
structure CommandOption where
  name : String
  value : Value
deriving DecidableEq

/-- Embeds command.Command.  The Options field embeds the Go map
map[string]CommandOption as an association list; insertion overwrites
in place, new keys are appended, and only key lookup and content are
observable (Go map iteration order is unspecified). -/
structure Command where
  bundle : String
  command : String
  options : List (String × CommandOption)
  parameters : List Value
deriving DecidableEq

/-- Embeds the parseOptions record built by Parse from its ParseOption
arguments. -/
structure ParseOptions where
  agnosticDashes : Bool
  assumeOptionArguments : Bool
  aliases : List (String × String)
  hasArg : List (String × Bool)

/-- The zero parseOptions value Parse starts from (all defaults). -/
def defaultParseOptions : ParseOptions := ⟨false, false, [], []⟩

/-- Go map assignment on the association-list embedding: replace the
binding in place when the key is present, append otherwise. -/
def optInsert : List (String × CommandOption) → String → CommandOption →
    List (String × CommandOption)
  | [], k, v => [(k, v)]
  | (k', v') :: rest, k, v =>
    if k' = k then (k, v) :: rest else (k', v') :: optInsert rest k v

/-- Association-list lookup, the embedding of a Go map read. -/
def optLookup : List (String × CommandOption) → String → Option CommandOption
  | [], _ => none
  | (k', v') :: rest, k => if k' = k then some v' else optLookup rest k

/-- Embeds command.dashCount: the number of leading dash characters. -/
def dashCountAux : List Char → Nat
  | [] => 0
  | c :: cs => if c = '-' then dashCountAux cs + 1 else 0

/-- Embeds command.dashCount on strings. -/
def dashCount (s : String) : Nat := dashCountAux s.data

/-- Embeds command.buildOption: canonicalize the name through the alias
map and pair it with the value Bool(true). -/
def buildOption (name : String) (po : ParseOptions) : CommandOption :=
  match po.aliases.lookup name with
  | some n => ⟨n, .bool true⟩
  | none => ⟨name, .bool true⟩

/-- Embeds command.SplitCommand's use of strings.Split(name, ":"):
splitting a character list at every colon.  Splitting the empty list
yields one empty component, as in Go. -/
def splitAtColons : List Char → List (List Char)
  | [] => [[]]
  | c :: cs =>
    let r := splitAtColons cs
    if c = ':' then [] :: r
    else match r with
      | h :: t => (c :: h) :: t
      | [] => [[c]]

/-- Embeds command.SplitCommand.  One component: empty bundle; two
components: bundle and command; more: ErrInvalidBundleCommandPair. -/
def splitCommand (name : String) : Except String (String × String) :=
  match (splitAtColons name.data).map (fun l => String.mk l) with
  | [c] => .ok ("", c)
  | [b, c] => .ok (b, c)
  | _ => .error "invalid bundle:comand pair"

/-- Embeds the token loop of command.Parse.  The mutable loop state
(the options map and the pending lastOption, kept by name since the Go
pointer always aliases the map entry of that name) is passed
explicitly; a break into the parameters assignment is embedded by
returning the inferred remaining tokens. -/
def parseLoop (po : ParseOptions) :
    List (String × CommandOption) → Option String → List String →
    List (String × CommandOption) × List Value
  | opts, _, [] => (opts, [])
  | opts, pending, t :: rest =>
    if t = "--" then (opts, inferAll rest)
    else if 2 ≤ t.length ∧ dashCount t = 2 then
      let o := buildOption (t.drop 2) po
      parseLoop po (optInsert opts o.name o) (some o.name) rest
    else if 1 ≤ t.length ∧ dashCount t = 1 then
      if po.agnosticDashes then
        let o := buildOption (t.drop 1) po
        parseLoop po (optInsert opts o.name o) (some o.name) rest
      else
        let step := (t.drop 1).data.foldl
          (fun (acc : List (String × CommandOption) × Option String) ch =>
            let o := buildOption (Char.toString ch) po
            (optInsert acc.1 o.name o, some o.name))
          (opts, pending)
        parseLoop po step.1 step.2 rest
    else
      match pending with
      | some pname =>
        let hasArgument :=
          match po.hasArg.lookup pname with
          | some b => b
          | none => po.assumeOptionArguments
        if hasArgument then
          parseLoop po (optInsert opts pname ⟨pname, infer t⟩) none rest
        else (opts, inferAll (t :: rest))
      | none => (opts, inferAll (t :: rest))

/-- Embeds command.Parse on an already-assembled parseOptions value.
Error strings are abbreviated; only success versus failure and the
successful Command are observable to the claims. -/
def parse (tokens : List String) (po : ParseOptions) : Except String Command :=
  match tokens with
  | [] => .error "empty tokens list"
  | t0 :: rest =>
    match splitCommand t0 with
    | .error e => .error e
    | .ok (b, c) =>
      let r := parseLoop po [] none rest
      .ok ⟨b, c, r.1, r.2⟩

/-! ## Canonical re-serialization and the string tokenizer -/

/-- Modelled from the spec: the canonical textual form of a Value, as
produced by formatting a types.Value with a default format verb.  The
types package is not among the provided sources; strings print their
text, ints their decimal digits, bools the literals, floats and
regexes their source text. -/
def valueFormat : Value → String
  | .str s => s
  | .int n => toString n
  | .float s => s
  | .bool b => if b then "true" else "false"
  | .regex s => "/" ++ s ++ "/"

/-- Embeds CommandParameters.String exactly as written: the first
value is written, and then the loop starting at index zero appends a
space and the value at every index, so the first value is emitted
twice. -/
def paramsString (c : List Value) : String :=
  match c with
  | [] => ""
  | v0 :: _ => c.foldl (fun acc vi => acc ++ " " ++ valueFormat vi) (valueFormat v0)

/-- Modelled from the spec: the command tokenizer splits on unescaped
whitespace, retains quotes in tokens, consumes a backslash and takes
the following character literally, and fails on an unterminated quote.
The tokenizer source is not among the provided files.  Accumulates the
current token (reversed) and the currently open quote character. -/
def tokenizeAux : List Char → List Char → Option Char → Except String (List String)
  | [], _, some _ => .error "unterminated quote"
  | [], cur, none =>
    .ok (if cur.isEmpty then [] else [String.mk cur.reverse])
  | c :: rest, cur, q =>
    if c = '\\' then
      match rest with
      | [] => tokenizeAux [] ('\\' :: cur) q
      | d :: rest' => tokenizeAux rest' (d :: cur) q
    else match q with
    | some qc =>
      if c = qc then tokenizeAux rest (c :: cur) none
      else tokenizeAux rest (c :: cur) (some qc)
    | none =>
      if c = ' ' ∨ c = '\t' ∨ c = '\n' then
        match tokenizeAux rest [] none with
        | .error e => .error e
        | .ok ts => .ok (if cur.isEmpty then ts else String.mk cur.reverse :: ts)
      else if c = '"' ∨ c = '\'' then tokenizeAux rest (c :: cur) (some c)
      else tokenizeAux rest (c :: cur) none

/-- Modelled from the spec: command.Tokenize on a whole input line. -/
def tokenize (s : String) : Except String (List String) :=
  tokenizeAux s.data [] none

/-- Embeds command.TokenizeAndParse: Tokenize, then Parse. -/
def tokenizeAndParse (s : String) (po : ParseOptions) : Except String Command :=
  match tokenize s with
  | .error e => .error e
  | .ok ts => parse ts po

/-! ## Rule evaluation (rules/rule.go)

rule.go consumes each condition only through its Evaluate method and
each permission through its Name and Condition fields.  The expression
evaluator itself (operators, modifiers, reference resolution) is in a
source file that is not part of the provided set, so a condition is
modelled from the spec as its join condition together with an abstract
evaluation function.  The Option Bool result models definedness: none
stands for an evaluation that must not take place (for example an
out-of-range environment reference); the Go conjunction and
disjunction short-circuit, so a skipped evaluation is one whose thunk
is never forced.
-/

/-- Embeds the rules join-condition type (Undefined, And, Or). -/
inductive Join where
  | jUndefined : Join
  | jAnd : Join
  | jOr : Join
deriving DecidableEq

/-- Modelled from the spec: the evaluation environment is a read-only
mapping; its exact shape is irrelevant to rule.go, which only threads
it through to each condition. -/
abbrev EvaluationEnvironment := List (String × Value)

/-- Modelled from the spec: a rule condition, represented by its
abstract evaluation function and its join condition (see the section
comment). -/
structure Expression where
  evalFn : EvaluationEnvironment → Option Bool
  condition : Join

/-- Embeds rules.Permission. -/
structure Permission where
  name : String
  condition : Join
deriving DecidableEq

/-- Embeds rules.Rule. -/
structure Rule where
  command : String
  conditions : List Expression
  permissions : List Permission

/-- Go conjunction on possibly-faulting operands: when the accumulator
is false the right-hand thunk is never forced (Go short-circuits). -/
def scAnd (a : Option Bool) (b : Unit → Option Bool) : Option Bool :=
  match a with
  | some false => some false
  | some true => b ()
  | none => none

/-- Go disjunction on possibly-faulting operands: when the accumulator
is true the right-hand thunk is never forced (Go short-circuits). -/
def scOr (a : Option Bool) (b : Unit → Option Bool) : Option Bool :=
  match a with
  | some true => some true
  | some false => b ()
  | none => none

/-- Embeds the loop of Rule.Matches from the second condition on: an
And join conjoins, an Or join disjoins, any other join leaves the
accumulator untouched. -/
def rmatchesFold (acc : Option Bool) (cs : List Expression)
    (env : EvaluationEnvironment) : Option Bool :=
  cs.foldl (fun result c =>
    match c.condition with
    | Join.jAnd => scAnd result (fun _ => c.evalFn env)
    | Join.jOr => scOr result (fun _ => c.evalFn env)
    | Join.jUndefined => result) acc

/-- Embeds Rule.Matches: an empty condition list matches everything,
otherwise the first condition seeds a strict left-to-right fold. -/
def Rule.rMatches (r : Rule) (env : EvaluationEnvironment) : Option Bool :=
  match r.conditions with
  | [] => some true
  | c :: cs => rmatchesFold (c.evalFn env) cs env

/-- Embeds rules.hasPermission: linear membership of the required name
in the acting user's permission strings. -/
def hasPermission (required : Permission) (permissions : List String) : Bool :=
  permissions.contains required.name

/-- Embeds the loop of Rule.Allowed from the second permission on. -/
def allowedFold (acc : Bool) (ps : List Permission) (permissions : List String) : Bool :=
  ps.foldl (fun result p =>
    match p.condition with
    | Join.jAnd => result && hasPermission p permissions
    | Join.jOr => result || hasPermission p permissions
    | Join.jUndefined => result) acc

/-- Embeds Rule.Allowed: an empty permission list always allows,
otherwise the first requirement seeds a strict left-to-right fold. -/
def Rule.rAllowed (r : Rule) (permissions : List String) : Bool :=
  match r.permissions with
  | [] => true
  | p :: ps => allowedFold (hasPermission p permissions) ps permissions

/-! ## The in-memory role store (dataaccess/memory role access)

The store keeps roles in a Go map keyed by name holding pointers to
rest.Role values; it is embedded as a function from names to Option
Role with explicit state passing, since mutation through a pointer is
exactly an update of the state at that key.
-/

/-- Interface-level store errors (dataaccess/errs) used by the
embedded operations. -/
inductive Errs where
  | emptyRoleName : Errs
  | roleExists : Errs
  | noSuchRole : Errs
  | noSuchUser : Errs
  | noSuchToken : Errs
deriving DecidableEq

/-- Modelled from the spec: rest.Group (the rest package is not among
the provided sources); only the name takes part in any claim. -/
structure Group where
  name : String
  users : List String
  roles : List String
deriving DecidableEq

/-- Embeds rest.RolePermission. -/
structure RolePermission where
  bundleName : String
  permission : String
deriving DecidableEq

/-- Embeds rest.Role as stored by the in-memory data access. -/
structure Role where
  name : String
  permissions : List RolePermission
  groups : List Group
deriving DecidableEq

/-- The roles map of InMemoryDataAccess, embedded as a lookup
function. -/
def RoleStore := String → Option Role

/-- Writing one role of the store (a Go map assignment, or a mutation
through the stored pointer). -/
def updateRole (st : RoleStore) (n : String) (r : Role) : RoleStore :=
  fun x => if x = n then some r else st x

/-- Embeds RoleCreate: reject the empty name, reject an existing name,
otherwise store a fresh role with no permissions. -/
def roleCreate (st : RoleStore) (name : String) : Except Errs RoleStore :=
  if name = "" then .error Errs.emptyRoleName
  else match st name with
    | some _ => .error Errs.roleExists
    | none => .ok (updateRole st name ⟨name, [], []⟩)

/-- Embeds RoleDelete. -/
def roleDelete (st : RoleStore) (name : String) : Except Errs RoleStore :=
  if name = "" then .error Errs.emptyRoleName
  else match st name with
    | some _ => .ok (fun x => if x = name then none else st x)
    | none => .error Errs.noSuchRole

/-- Embeds RoleExists. -/
def roleExists (st : RoleStore) (name : String) : Except Errs Bool :=
  if name = "" then .error Errs.emptyRoleName
  else .ok (st name).isSome

/-- Embeds RoleGet: the empty-name check happens after the map read in
the source, which is observationally the same as checking first. -/
def roleGet (st : RoleStore) (name : String) : Except Errs Role :=
  if name = "" then .error Errs.emptyRoleName
  else match st name with
    | some role => .ok role
    | none => .error Errs.noSuchRole

/-- Embeds RoleGrantPermission: no empty-name validation; a failed map
lookup is NoSuchRole; on success the permission pair is appended to
the stored role's permission slice, unconditionally. -/
def roleGrantPermission (st : RoleStore) (rolename bundle permission : String) :
    Except Errs RoleStore :=
  match st rolename with
  | none => .error Errs.noSuchRole
  | some role =>
    .ok (updateRole st rolename
      ⟨role.name, role.permissions ++ [⟨bundle, permission⟩], role.groups⟩)

/-- Embeds RoleGroupList: the stored role's Groups slice is returned
directly (an alias of internal state, not a copy). -/
def roleGroupList (st : RoleStore) (rolename : String) : Except Errs (List Group) :=
  match st rolename with
  | none => .error Errs.noSuchRole
  | some role => .ok role.groups

/-- Modelled from the spec: rest.RolePermission.String, the
fully-qualified bundle-colon-permission form named by the
RolePermissionList comment (the rest package source is absent). -/
def permKey (p : RolePermission) : String := p.bundleName ++ ":" ++ p.permission

/-- Lexicographic order on character lists, the Go ordering of
strings (code-point order coincides with byte order under UTF-8). -/
def charListLt : List Char → List Char → Bool
  | [], [] => false
  | [], _ :: _ => true
  | _ :: _, [] => false
  | a :: as, b :: bs =>
    if a.toNat < b.toNat then true
    else if b.toNat < a.toNat then false
    else charListLt as bs

/-- The Go less-than on strings. -/
def strLt (a b : String) : Bool := charListLt a.data b.data

/-- Insertion of one permission into a list sorted by permKey. -/
def insertPerm (p : RolePermission) : List RolePermission → List RolePermission
  | [] => [p]
  | q :: qs => if strLt (permKey p) (permKey q) then p :: q :: qs else q :: insertPerm p qs

/-- The sort performed by RolePermissionList (sort.Slice ordered by
RolePermission.String). -/
def sortPerms : List RolePermission → List RolePermission
  | [] => []
  | p :: ps => insertPerm p (sortPerms ps)

/-- Embeds RolePermissionList.  RoleGet copies the role struct, but the
copied Permissions slice header shares its backing array with the
stored role, so the in-place sort.Slice permutes the stored role's
permissions as well; the post-state therefore holds the sorted order,
and the returned list is exactly that storage. -/
def rolePermissionList (st : RoleStore) (rolename : String) :
    Except Errs (List RolePermission × RoleStore) :=
  match roleGet st rolename with
  | .error e => .error e
  | .ok role =>
    let sorted := sortPerms role.permissions
    .ok (sorted, updateRole st rolename ⟨role.name, sorted, role.groups⟩)

/-! ## The in-memory token store (dataaccess/memory/token-access.go)

The two token maps are embedded as lookup functions carried in an
explicit state together with the set of existing usernames (UserExists
of the in-memory store is membership in its users map).  The
cryptographically random token value produced by
data.GenerateRandomToken is modelled as an explicit argument; its
high entropy is expressed by freshness and distinctness hypotheses
where a claim needs them.  Time is an explicit Nat argument.
-/

/-- Embeds rest.Token (value, username, validity window, duration). -/
structure Token where
  value : String
  user : String
  validFrom : Nat
  validUntil : Nat
  duration : Nat
deriving DecidableEq

/-- The state of the in-memory token access: existing usernames plus
the by-username and by-value token maps. -/
structure TokenState where
  users : List String
  byUser : String → Option Token
  byValue : String → Option Token

/-- Pointwise update of a token map (Go map assignment or delete). -/
def upd (m : String → Option Token) (k : String) (v : Option Token) :
    String → Option Token :=
  fun x => if x = k then v else m x

/-- Embeds TokenRetrieveByUser. -/
def tokenRetrieveByUser (st : TokenState) (username : String) : Except Errs Token :=
  match st.byUser username with
  | some t => .ok t
  | none => .error Errs.noSuchToken

/-- Embeds TokenRetrieveByToken. -/
def tokenRetrieveByToken (st : TokenState) (tokenString : String) : Except Errs Token :=
  match st.byValue tokenString with
  | some t => .ok t
  | none => .error Errs.noSuchToken

/-- Embeds TokenInvalidate: retrieve by value, then delete the found
token from both maps. -/
def tokenInvalidate (st : TokenState) (tokenString : String) :
    Except Errs TokenState :=
  match tokenRetrieveByToken st tokenString with
  | .error e => .error e
  | .ok t =>
    .ok ⟨st.users, upd st.byUser t.user none, upd st.byValue t.value none⟩

/-- Modelled from the spec: rest.Token.IsExpired (the rest package
source is absent); Evaluate is true iff now is before valid_until, so
a token is expired iff valid_until is not after now. -/
def isExpired (t : Token) (now : Nat) : Bool := t.validUntil ≤ now

/-- Embeds TokenEvaluate: false when retrieval by value fails,
otherwise the negation of expiry. -/
def tokenEvaluate (st : TokenState) (tokenString : String) (now : Nat) : Bool :=
  match tokenRetrieveByToken st tokenString with
  | .error _ => false
  | .ok t => !isExpired t now

/-- Embeds the invalidation phase of TokenGenerate: if a token exists
for the user it is invalidated; the error of the inner TokenInvalidate
call is discarded by the source, leaving the state unchanged. -/
def invalPhase (st : TokenState) (username : String) : TokenState :=
  match st.byUser username with
  | some t =>
    match tokenInvalidate st t.value with
    | .ok st' => st'
    | .error _ => st
  | none => st

/-- Embeds the successful body of TokenGenerate: invalidate the
current token, build the new token stamped with now and now plus the
duration, and store it under both indexes. -/
def genStep (st : TokenState) (username tokenString : String) (now dur : Nat) :
    Token × TokenState :=
  let st1 := invalPhase st username
  let tok : Token := ⟨tokenString, username, now, now + dur, dur⟩
  (tok, ⟨st1.users, upd st1.byUser username (some tok),
         upd st1.byValue tokenString (some tok)⟩)

/-- Embeds TokenGenerate: NoSuchUser when the username is absent,
otherwise the generation step (the random value is the tokenString
argument, see the section comment). -/
def tokenGenerate (st : TokenState) (username tokenString : String) (now dur : Nat) :
    Except Errs (Token × TokenState) :=
  if st.users.contains username then .ok (genStep st username tokenString now dur)
  else .error Errs.noSuchUser

/-- Consistency of the two token maps: every stored token is keyed by
its own value in one map and by its own username in the other, and the
two maps agree. -/
def TokenWF (st : TokenState) : Prop :=
  (∀ v t, st.byValue v = some t → t.value = v ∧ st.byUser t.user = some t) ∧
  (∀ u t, st.byUser u = some t → t.user = u ∧ st.byValue t.value = some t)

/-- At most one token of the by-value map belongs to a given user. -/
def AtMostOneTokenFor (u : String) (st : TokenState) : Prop :=
  ∀ v w t s, st.byValue v = some t → st.byValue w = some s →
    t.user = u → s.user = u → v = w

/-- A sequence of successful TokenGenerate calls for one user, each
with a fresh random value, recording the returned tokens. -/
inductive GenTrace (u : String) : TokenState → List Token → TokenState → Prop where
  | nil : ∀ st, GenTrace u st [] st
  | cons : ∀ st f now dur pr ts stF,
      st.byValue f = none →
      tokenGenerate st u f now dur = .ok pr →
      GenTrace u pr.2 ts stF →
      GenTrace u st (pr.1 :: ts) stF

/-! ## Demonstration states used by witnesses and counterexamples -/

/-- A role store holding one role named r with no permissions. -/
def demoRoleStore : RoleStore :=
  fun n => if n = "r" then some ⟨"r", [], []⟩ else none

/-- A role store holding one role named r whose two permissions are
stored out of alphabetical order. -/
def demoPermStore : RoleStore :=
  fun n => if n = "r" then some ⟨"r", [⟨"z", "p"⟩, ⟨"a", "q"⟩], []⟩ else none

/-- A condition that always evaluates to false. -/
def expFalse : Expression := ⟨fun _ => some false, Join.jUndefined⟩

/-- A condition that always evaluates to true. -/
def expTrue : Expression := ⟨fun _ => some true, Join.jUndefined⟩

/-! ## Shared fold lemmas for the rule evaluator -/

/-- The Matches fold over an appended condition list is the fold of the
second part seeded with the fold of the first. -/
theorem rmatchesFold_append (acc : Option Bool) (l1 l2 : List Expression)
    (env : EvaluationEnvironment) :
    rmatchesFold acc (l1 ++ l2) env = rmatchesFold (rmatchesFold acc l1 env) l2 env := by
  simp [rmatchesFold, List.foldl_append]

/-- The Allowed fold over an appended permission list is the fold of
the second part seeded with the fold of the first. -/
theorem allowedFold_append (acc : Bool) (l1 l2 : List Permission)
    (perms : List String) :
    allowedFold acc (l1 ++ l2) perms = allowedFold (allowedFold acc l1 perms) l2 perms := by
  simp [allowedFold, List.foldl_append]

/-! ## Claims C1, C5, C9: command parsing -/

/-- Claim C1, counterexample: parsing the token sequence of the line
with default options yields no option named flag at all; the token
after the double dash is kept whole, producing an option literally
named with the equals sign and the digits, bound to Bool(true). -/
theorem c1_counterexample :
    ∃ c, parse ["foo:bar", "-abc", "--flag=42", "--", "raw", "value"] defaultParseOptions
        = Except.ok c
      ∧ optLookup c.options "flag" = none
      ∧ optLookup c.options "flag=42" = some ⟨"flag=42", Value.bool true⟩ :=
  ⟨_, rfl, rfl, rfl⟩

/-- Claim C1 as amended: parsing the token sequence of the line
with default options returns bundle foo, command bar, the options a,
b, c and the literal name flag=42 all bound to Bool(true) (the parser
performs no equals-sign splitting of long options), and the positional
parameters String(raw), String(value). -/
theorem c1_amended :
    parse ["foo:bar", "-abc", "--flag=42", "--", "raw", "value"] defaultParseOptions
      = Except.ok ⟨"foo", "bar",
          [("a", ⟨"a", Value.bool true⟩), ("b", ⟨"b", Value.bool true⟩),
           ("c", ⟨"c", Value.bool true⟩), ("flag=42", ⟨"flag=42", Value.bool true⟩)],
          [Value.str "raw", Value.str "value"]⟩ := rfl

/-- Claim C5, counterexample: parsing succeeds on the single token
foo-colon with an empty command field, so a successful parse does not
guarantee a non-empty command and SplitCommand does succeed with an
empty command component. -/
theorem c5_counterexample :
    ∃ c, parse ["foo:"] defaultParseOptions = Except.ok c ∧ c.command = "" :=
  ⟨⟨"foo", "", [], []⟩, rfl, rfl⟩

/-- Claim C5 as amended: whenever parsing succeeds, the bundle and
command fields are exactly the components SplitCommand extracts from
the first token, and that command component may be empty (it is empty
exactly when the first token is empty or ends in its only colon). -/
theorem c5_amended (toks : List String) (po : ParseOptions) (c : Command)
    (h : parse toks po = Except.ok c) :
    splitCommand (toks.headD "") = Except.ok (c.bundle, c.command) := by
  cases toks with
  | nil => simp [parse] at h
  | cons t0 rest =>
    simp only [parse] at h
    split at h
    · cases h
    · rename_i b cname heq
      cases h
      simpa using heq

/-- Witness for the amended claim C5 at the concrete token foo-colon,
whose command component is empty. -/
theorem c5_witness :
    parse ["foo:"] defaultParseOptions = Except.ok ⟨"foo", "", [], []⟩
  ∧ splitCommand "foo:" = Except.ok ("foo", "") :=
  ⟨rfl, c5_amended ["foo:"] defaultParseOptions ⟨"foo", "", [], []⟩ rfl⟩

/-- Claim C9: evaluating the code at the failing input.  The
re-serialization of the parameter list of the parsed command duplicates
its first element (the serialization loop starts at index zero after
already writing element zero), so re-tokenizing and re-parsing the
canonical form yields a different Command: the round-trip property
fails. -/
theorem c9_bug :
    paramsString [Value.str "x"] = "x x"
  ∧ tokenizeAndParse "foo:bar x" defaultParseOptions
      = Except.ok ⟨"foo", "bar", [], [Value.str "x"]⟩
  ∧ tokenizeAndParse ("foo:bar " ++ paramsString [Value.str "x"]) defaultParseOptions
      = Except.ok ⟨"foo", "bar", [], [Value.str "x", Value.str "x"]⟩
  ∧ [Value.str "x", Value.str "x"] ≠ [Value.str "x"] :=
  ⟨rfl, rfl, rfl, by decide⟩

/-! ## Claims C3, C4, C6: the in-memory role store -/

/-- Claim C3, counterexample: listing the permissions of a role whose
stored permission order is not alphabetical changes the stored role
(the in-place sort permutes the shared backing array), so the read is
not a copy and does not leave the store unchanged. -/
theorem c3_counterexample :
    ∃ pr, rolePermissionList demoPermStore "r" = Except.ok pr
    ∧ pr.2 "r" = some ⟨"r", [⟨"a", "q"⟩, ⟨"z", "p"⟩], []⟩
    ∧ demoPermStore "r" = some ⟨"r", [⟨"z", "p"⟩, ⟨"a", "q"⟩], []⟩
    ∧ pr.2 "r" ≠ demoPermStore "r" :=
  ⟨_, rfl, rfl, rfl, by decide⟩

/-- Claim C3 as amended: the list-returning role reads return internal
state rather than copies: RoleGroupList returns the stored group list
itself, and RolePermissionList returns the sorted permission list
while simultaneously storing that sorted list back into the role, so
after the call the stored role holds exactly the returned list (the
stored order is the sorted order, not necessarily the pre-call
order). -/
theorem c3_amended (st : RoleStore) (r : String) (role : Role)
    (h : st r = some role) (hr : r ≠ "") :
    roleGroupList st r = Except.ok role.groups
  ∧ rolePermissionList st r
      = Except.ok (sortPerms role.permissions,
          updateRole st r ⟨role.name, sortPerms role.permissions, role.groups⟩) := by
  constructor
  · unfold roleGroupList
    rw [h]
  · unfold rolePermissionList roleGet
    rw [if_neg hr, h]

/-- Witness for the amended claim C3 at the concrete two-permission
store, showing the post-state holds the sorted list. -/
theorem c3_witness :
    roleGroupList demoPermStore "r" = Except.ok []
  ∧ rolePermissionList demoPermStore "r"
      = Except.ok ([⟨"a", "q"⟩, ⟨"z", "p"⟩],
          updateRole demoPermStore "r" ⟨"r", [⟨"a", "q"⟩, ⟨"z", "p"⟩], []⟩) :=
  c3_amended demoPermStore "r" ⟨"r", [⟨"z", "p"⟩, ⟨"a", "q"⟩], []⟩ rfl (by decide)

/-- Claim C4, counterexample: RoleGrantPermission with an empty role
name returns NoSuchRole, not the empty-role-name error, because it
performs no emptiness validation before its lookup. -/
theorem c4_counterexample :
    roleGrantPermission (fun _ => none) "" "b" "p" = Except.error Errs.noSuchRole
  ∧ Errs.noSuchRole ≠ Errs.emptyRoleName :=
  ⟨rfl, by decide⟩

/-- Claim C4 as amended: RoleCreate, RoleDelete, RoleExists and
RoleGet validate non-emptiness and return the empty-name error for an
empty name, but RoleGrantPermission performs no such validation and
returns NoSuchRole for any absent role name, the empty name
included. -/
theorem c4_amended (st : RoleStore) (n b p : String) (hn : st n = none) :
    roleCreate st "" = Except.error Errs.emptyRoleName
  ∧ roleDelete st "" = Except.error Errs.emptyRoleName
  ∧ roleExists st "" = Except.error Errs.emptyRoleName
  ∧ roleGet st "" = Except.error Errs.emptyRoleName
  ∧ roleGrantPermission st n b p = Except.error Errs.noSuchRole := by
  refine ⟨rfl, rfl, rfl, rfl, ?_⟩
  unfold roleGrantPermission
  rw [hn]

/-- Witness for the amended claim C4 at the empty store and the empty
role name. -/
theorem c4_witness :
    roleCreate (fun _ => none) "" = Except.error Errs.emptyRoleName
  ∧ roleGrantPermission (fun _ => none) "" "b" "p" = Except.error Errs.noSuchRole :=
  ⟨(c4_amended (fun _ => none) "" "b" "p" rfl).1,
   (c4_amended (fun _ => none) "" "b" "p" rfl).2.2.2.2⟩

/-- Claim C6, counterexample: granting the same permission pair twice
appends it twice; the stored state after two grants differs from the
state after one, so a role's permissions are not a set. -/
theorem c6_counterexample :
    ∃ st1 st2,
      roleGrantPermission demoRoleStore "r" "b" "p" = Except.ok st1
    ∧ roleGrantPermission st1 "r" "b" "p" = Except.ok st2
    ∧ st1 "r" = some ⟨"r", [⟨"b", "p"⟩], []⟩
    ∧ st2 "r" = some ⟨"r", [⟨"b", "p"⟩, ⟨"b", "p"⟩], []⟩
    ∧ st2 "r" ≠ st1 "r" :=
  ⟨_, _, rfl, rfl, rfl, rfl, by decide⟩

/-- Claim C6 as amended: RoleGrantPermission appends unconditionally,
so for any stored role two grants of the same pair leave the role
holding its previous permissions followed by two copies of the pair,
while one grant appends a single copy: duplicates are retained and the
twice-granted state differs from the once-granted state. -/
theorem c6_amended (st : RoleStore) (r b p : String) (role : Role)
    (h : st r = some role) :
    ∃ st1 st2,
      roleGrantPermission st r b p = Except.ok st1
    ∧ roleGrantPermission st1 r b p = Except.ok st2
    ∧ st1 r = some ⟨role.name, role.permissions ++ [⟨b, p⟩], role.groups⟩
    ∧ st2 r = some ⟨role.name, (role.permissions ++ [⟨b, p⟩]) ++ [⟨b, p⟩], role.groups⟩ := by
  have h1 : (updateRole st r ⟨role.name, role.permissions ++ [⟨b, p⟩], role.groups⟩) r
      = some ⟨role.name, role.permissions ++ [⟨b, p⟩], role.groups⟩ := by
    unfold updateRole
    simp
  refine ⟨updateRole st r ⟨role.name, role.permissions ++ [⟨b, p⟩], role.groups⟩,
    updateRole (updateRole st r ⟨role.name, role.permissions ++ [⟨b, p⟩], role.groups⟩) r
      ⟨role.name, (role.permissions ++ [⟨b, p⟩]) ++ [⟨b, p⟩], role.groups⟩,
    ?_, ?_, h1, ?_⟩
  · unfold roleGrantPermission
    rw [h]
  · unfold roleGrantPermission
    rw [h1]
  · unfold updateRole
    simp

/-- Witness for the amended claim C6 at the concrete one-role store. -/
theorem c6_witness :
    ∃ st1 st2,
      roleGrantPermission demoRoleStore "r" "b" "p" = Except.ok st1
    ∧ roleGrantPermission st1 "r" "b" "p" = Except.ok st2
    ∧ st1 "r" = some ⟨"r", [⟨"b", "p"⟩], []⟩
    ∧ st2 "r" = some ⟨"r", [⟨"b", "p"⟩] ++ [⟨"b", "p"⟩], []⟩ :=
  c6_amended demoRoleStore "r" "b" "p" ⟨"r", [], []⟩ rfl

/-! ## Claims C7, C8, C10: the rule evaluator fold -/

/-- Claim C7: both folds are strict left-to-right with no operator
precedence.  The three-condition sequence x, and-y, or-z evaluates as
the disjunction of z with the conjunction of x and y; appending an
and-joined or or-joined element to a non-empty sequence conjoins or
disjoins it with the fold of the prefix, for conditions and for
permissions alike; an empty condition sequence matches and an empty
permission sequence allows. -/
theorem c7_left_fold_no_precedence
    (cmd : String) (ps : List Permission) (env : EvaluationEnvironment)
    (x y z : EvaluationEnvironment → Option Bool)
    (c0 : Expression) (cs : List Expression) (f : EvaluationEnvironment → Option Bool)
    (conds : List Expression) (p0 : Permission) (qs : List Permission)
    (nm : String) (perms : List String) :
    Rule.rMatches ⟨cmd, [⟨x, Join.jUndefined⟩, ⟨y, Join.jAnd⟩, ⟨z, Join.jOr⟩], ps⟩ env
      = scOr (scAnd (x env) (fun _ => y env)) (fun _ => z env)
  ∧ Rule.rMatches ⟨cmd, [], ps⟩ env = some true
  ∧ Rule.rAllowed ⟨cmd, conds, []⟩ perms = true
  ∧ Rule.rMatches ⟨cmd, (c0 :: cs) ++ [⟨f, Join.jAnd⟩], ps⟩ env
      = scAnd (Rule.rMatches ⟨cmd, c0 :: cs, ps⟩ env) (fun _ => f env)
  ∧ Rule.rMatches ⟨cmd, (c0 :: cs) ++ [⟨f, Join.jOr⟩], ps⟩ env
      = scOr (Rule.rMatches ⟨cmd, c0 :: cs, ps⟩ env) (fun _ => f env)
  ∧ Rule.rAllowed ⟨cmd, conds, (p0 :: qs) ++ [⟨nm, Join.jAnd⟩]⟩ perms
      = (Rule.rAllowed ⟨cmd, conds, p0 :: qs⟩ perms
          && hasPermission ⟨nm, Join.jAnd⟩ perms)
  ∧ Rule.rAllowed ⟨cmd, conds, (p0 :: qs) ++ [⟨nm, Join.jOr⟩]⟩ perms
      = (Rule.rAllowed ⟨cmd, conds, p0 :: qs⟩ perms
          || hasPermission ⟨nm, Join.jOr⟩ perms) := by
  refine ⟨rfl, rfl, rfl, ?_, ?_, ?_, ?_⟩
  · show rmatchesFold (c0.evalFn env) (cs ++ [⟨f, Join.jAnd⟩]) env = _
    rw [rmatchesFold_append]
    rfl
  · show rmatchesFold (c0.evalFn env) (cs ++ [⟨f, Join.jOr⟩]) env = _
    rw [rmatchesFold_append]
    rfl
  · show allowedFold (hasPermission p0 perms) (qs ++ [⟨nm, Join.jAnd⟩]) perms = _
    rw [allowedFold_append]
    rfl
  · show allowedFold (hasPermission p0 perms) (qs ++ [⟨nm, Join.jOr⟩]) perms = _
    rw [allowedFold_append]
    rfl

/-- Claim C10: an element after the first whose join condition is
neither And nor Or is skipped entirely by both folds: the match and
allow decisions are the same as for the sequence with that element
removed, whatever (and however undefined) its evaluation would be. -/
theorem c10_undefined_join_skipped
    (cmd : String) (env : EvaluationEnvironment) (ps : List Permission)
    (c0 : Expression) (cs ds : List Expression)
    (f : EvaluationEnvironment → Option Bool)
    (conds : List Expression) (p0 : Permission) (qs rs : List Permission)
    (nm : String) (perms : List String) :
    Rule.rMatches ⟨cmd, c0 :: (cs ++ ⟨f, Join.jUndefined⟩ :: ds), ps⟩ env
      = Rule.rMatches ⟨cmd, c0 :: (cs ++ ds), ps⟩ env
  ∧ Rule.rAllowed ⟨cmd, conds, p0 :: (qs ++ ⟨nm, Join.jUndefined⟩ :: rs)⟩ perms
      = Rule.rAllowed ⟨cmd, conds, p0 :: (qs ++ rs)⟩ perms := by
  constructor
  · show rmatchesFold (c0.evalFn env) (cs ++ ⟨f, Join.jUndefined⟩ :: ds) env
      = rmatchesFold (c0.evalFn env) (cs ++ ds) env
    rw [show (⟨f, Join.jUndefined⟩ :: ds : List Expression)
        = [⟨f, Join.jUndefined⟩] ++ ds from rfl]
    rw [← List.append_assoc, rmatchesFold_append, rmatchesFold_append,
      rmatchesFold_append]
    rfl
  · show allowedFold (hasPermission p0 perms) (qs ++ ⟨nm, Join.jUndefined⟩ :: rs) perms
      = allowedFold (hasPermission p0 perms) (qs ++ rs) perms
    rw [show (⟨nm, Join.jUndefined⟩ :: rs : List Permission)
        = [⟨nm, Join.jUndefined⟩] ++ rs from rfl]
    rw [← List.append_assoc, allowedFold_append, allowedFold_append,
      allowedFold_append]
    rfl

/-- Claim C8: short-circuiting of the Matches fold.  Once the
accumulator over the prefix is false, the evaluation of an and-joined
condition is skipped, and once it is true, the evaluation of an
or-joined condition is skipped: the overall result does not depend on
the skipped condition's value or definedness.  In particular a false
condition followed by an and-joined condition whose evaluation is
undefined (an out-of-range reference) yields false, with the undefined
evaluation never forced. -/
theorem c8_short_circuit
    (cmd : String) (ps : List Permission) (env : EvaluationEnvironment)
    (c0 c1 : Expression) (cs0 cs1 suf0 suf1 : List Expression)
    (f g h k bad : EvaluationEnvironment → Option Bool)
    (hfalse : rmatchesFold (c0.evalFn env) cs0 env = some false)
    (htrue : rmatchesFold (c1.evalFn env) cs1 env = some true) :
    Rule.rMatches ⟨cmd, c0 :: (cs0 ++ ⟨f, Join.jAnd⟩ :: suf0), ps⟩ env
      = Rule.rMatches ⟨cmd, c0 :: (cs0 ++ ⟨g, Join.jAnd⟩ :: suf0), ps⟩ env
  ∧ Rule.rMatches ⟨cmd, c1 :: (cs1 ++ ⟨h, Join.jOr⟩ :: suf1), ps⟩ env
      = Rule.rMatches ⟨cmd, c1 :: (cs1 ++ ⟨k, Join.jOr⟩ :: suf1), ps⟩ env
  ∧ Rule.rMatches ⟨cmd, [⟨fun _ => some false, Join.jUndefined⟩, ⟨bad, Join.jAnd⟩], ps⟩ env
      = some false := by
  refine ⟨?_, ?_, rfl⟩
  · show rmatchesFold (c0.evalFn env) (cs0 ++ ⟨f, Join.jAnd⟩ :: suf0) env
      = rmatchesFold (c0.evalFn env) (cs0 ++ ⟨g, Join.jAnd⟩ :: suf0) env
    rw [rmatchesFold_append, rmatchesFold_append, hfalse]
    rfl
  · show rmatchesFold (c1.evalFn env) (cs1 ++ ⟨h, Join.jOr⟩ :: suf1) env
      = rmatchesFold (c1.evalFn env) (cs1 ++ ⟨k, Join.jOr⟩ :: suf1) env
    rw [rmatchesFold_append, rmatchesFold_append, htrue]
    rfl

/-- Witness for claim C8 at concrete conditions: a false first
condition, an empty prefix, and an and-joined condition whose
evaluation is undefined versus one that is defined, with equal
results; the prefix folds evaluate to false and true respectively. -/
theorem c8_witness :
    rmatchesFold (expFalse.evalFn []) [] [] = some false
  ∧ rmatchesFold (expTrue.evalFn []) [] [] = some true
  ∧ (Rule.rMatches ⟨"b:c", [expFalse, ⟨fun _ => none, Join.jAnd⟩], []⟩ []
      = Rule.rMatches ⟨"b:c", [expFalse, ⟨fun _ => some true, Join.jAnd⟩], []⟩ [])
  ∧ Rule.rMatches ⟨"b:c", [expFalse, ⟨fun _ => none, Join.jAnd⟩], []⟩ [] = some false := by
  refine ⟨rfl, rfl, ?_, ?_⟩
  · exact (c8_short_circuit "b:c" [] [] expFalse expTrue [] [] [] []
      (fun _ => none) (fun _ => some true) (fun _ => none) (fun _ => none)
      (fun _ => none) rfl rfl).1
  · exact (c8_short_circuit "b:c" [] [] expFalse expTrue [] [] [] []
      (fun _ => none) (fun _ => some true) (fun _ => none) (fun _ => none)
      (fun _ => none) rfl rfl).2.2

/-! ## Claim C2: token generation supersedes earlier tokens -/

/-- A successful TokenGenerate call means the user exists and the
result is the generation step. -/
theorem tokenGenerate_ok_eq {st : TokenState} {u f : String} {now dur : Nat}
    {pr : Token × TokenState}
    (h : tokenGenerate st u f now dur = Except.ok pr) :
    pr = genStep st u f now dur ∧ st.users.contains u = true := by
  unfold tokenGenerate at h
  split at h
  · injection h with h'
    exact ⟨h'.symm, by assumption⟩
  · cases h

/-- The invalidation phase either leaves the state unchanged or
deletes one token pair from both maps. -/
theorem invalPhase_cases (st : TokenState) (u : String) :
    invalPhase st u = st
    ∨ ∃ t' : Token, invalPhase st u
        = ⟨st.users, upd st.byUser t'.user none, upd st.byValue t'.value none⟩ := by
  unfold invalPhase
  cases h1 : st.byUser u with
  | none => exact Or.inl rfl
  | some t =>
    show (match tokenInvalidate st t.value with
          | Except.ok st' => st'
          | Except.error _ => st) = st
      ∨ ∃ t' : Token, (match tokenInvalidate st t.value with
          | Except.ok st' => st'
          | Except.error _ => st)
        = ⟨st.users, upd st.byUser t'.user none, upd st.byValue t'.value none⟩
    unfold tokenInvalidate tokenRetrieveByToken
    cases h2 : st.byValue t.value with
    | none => exact Or.inl rfl
    | some t' => exact Or.inr ⟨t', rfl⟩

/-- The invalidation phase never changes the user list. -/
theorem invalPhase_users (st : TokenState) (u : String) :
    (invalPhase st u).users = st.users := by
  rcases invalPhase_cases st u with he | ⟨t', he⟩ <;> rw [he]

/-- With no current token for the user, the invalidation phase is the
identity. -/
theorem invalPhase_of_byUser_none (st : TokenState) (u : String)
    (h : st.byUser u = none) : invalPhase st u = st := by
  unfold invalPhase
  rw [h]

/-- With a current token and consistent maps, the invalidation phase
deletes exactly that token from both maps. -/
theorem invalPhase_of_byUser_some (st : TokenState) (u : String) (t : Token)
    (hwf : TokenWF st) (h : st.byUser u = some t) :
    invalPhase st u = ⟨st.users, upd st.byUser u none, upd st.byValue t.value none⟩ := by
  have hu : t.user = u := (hwf.2 u t h).1
  have hv : st.byValue t.value = some t := (hwf.2 u t h).2
  unfold invalPhase
  rw [h]
  show (match tokenInvalidate st t.value with
        | Except.ok st' => st'
        | Except.error _ => st) = _
  unfold tokenInvalidate tokenRetrieveByToken
  rw [hv]
  show ({ users := st.users, byUser := upd st.byUser t.user none,
          byValue := upd st.byValue t.value none } : TokenState) = _
  rw [hu]

/-- The invalidation phase maps absent token values to absent token
values (it only ever deletes). -/
theorem invalPhase_byValue_none (st : TokenState) (u v : String)
    (h : st.byValue v = none) : (invalPhase st u).byValue v = none := by
  rcases invalPhase_cases st u with he | ⟨t', he⟩
  · rw [he]
    exact h
  · rw [he]
    show (upd st.byValue t'.value none) v = none
    unfold upd
    split
    · rfl
    · exact h

/-- A generation step leaves any token value other than the freshly
inserted one absent if it was absent before the step. -/
theorem genStep_byValue_none (st : TokenState) (u f v : String) (now dur : Nat)
    (hv : st.byValue v = none) (hne : v ≠ f) :
    (genStep st u f now dur).2.byValue v = none := by
  show (upd (invalPhase st u).byValue f _) v = none
  unfold upd
  rw [if_neg hne]
  exact invalPhase_byValue_none st u v hv

/-- Inserting a token for a user with no current token, under a fresh
value, preserves consistency of the two maps. -/
theorem tokenWF_insert (st : TokenState) (u f : String) (tok : Token)
    (hwf : TokenWF st) (htv : tok.value = f) (htu : tok.user = u)
    (_hu : st.byUser u = none) (hf : st.byValue f = none)
    (hnouser : ∀ v t, st.byValue v = some t → t.user ≠ u) :
    TokenWF ⟨st.users, upd st.byUser u (some tok), upd st.byValue f (some tok)⟩ := by
  obtain ⟨wfV, wfU⟩ := hwf
  constructor
  · intro v t hvt
    have h2 : (upd st.byValue f (some tok)) v = some t := hvt
    unfold upd at h2
    by_cases hvf : v = f
    · rw [if_pos hvf] at h2
      injection h2 with h3
      subst h3
      refine ⟨htv.trans hvf.symm, ?_⟩
      show (upd st.byUser u (some tok)) tok.user = some tok
      unfold upd
      rw [if_pos htu]
    · rw [if_neg hvf] at h2
      obtain ⟨h3, h4⟩ := wfV v t h2
      have hne : t.user ≠ u := hnouser v t h2
      refine ⟨h3, ?_⟩
      show (upd st.byUser u (some tok)) t.user = some t
      unfold upd
      rw [if_neg hne]
      exact h4
  · intro x t hxt
    have h2 : (upd st.byUser u (some tok)) x = some t := hxt
    unfold upd at h2
    by_cases hxu : x = u
    · rw [if_pos hxu] at h2
      injection h2 with h3
      subst h3
      refine ⟨htu.trans hxu.symm, ?_⟩
      show (upd st.byValue f (some tok)) tok.value = some tok
      unfold upd
      rw [if_pos htv]
    · rw [if_neg hxu] at h2
      obtain ⟨h3, h4⟩ := wfU x t h2
      have hne : t.value ≠ f := by
        intro he
        rw [he, hf] at h4
        cases h4
      refine ⟨h3, ?_⟩
      show (upd st.byValue f (some tok)) t.value = some t
      unfold upd
      rw [if_neg hne]
      exact h4

/-- Deleting the current token of a user from both maps preserves
consistency, leaves the user without a token, and leaves no token of
that user in the by-value map. -/
theorem tokenWF_erase (st : TokenState) (u : String) (t0 : Token)
    (hwf : TokenWF st) (h : st.byUser u = some t0) :
    TokenWF ⟨st.users, upd st.byUser u none, upd st.byValue t0.value none⟩
    ∧ (upd st.byUser u none) u = none
    ∧ (∀ v t, (upd st.byValue t0.value none) v = some t → t.user ≠ u) := by
  obtain ⟨wfV, wfU⟩ := hwf
  have ht0u : t0.user = u := (wfU u t0 h).1
  have ht0v : st.byValue t0.value = some t0 := (wfU u t0 h).2
  have hsplitV : ∀ v t, (upd st.byValue t0.value none) v = some t →
      v ≠ t0.value ∧ st.byValue v = some t := by
    intro v t hvt
    unfold upd at hvt
    by_cases hv : v = t0.value
    · rw [if_pos hv] at hvt
      cases hvt
    · rw [if_neg hv] at hvt
      exact ⟨hv, hvt⟩
  have hnou : ∀ v t, (upd st.byValue t0.value none) v = some t → t.user ≠ u := by
    intro v t hvt heq
    obtain ⟨hv, hvt'⟩ := hsplitV v t hvt
    have h2 := (wfV v t hvt').2
    rw [heq, h] at h2
    injection h2 with h3
    have h4 : t.value = v := (wfV v t hvt').1
    rw [← h3] at h4
    exact hv h4.symm
  refine ⟨⟨?_, ?_⟩, ?_, hnou⟩
  · intro v t hvt
    obtain ⟨hv, hvt'⟩ := hsplitV v t hvt
    obtain ⟨h1, h2⟩ := wfV v t hvt'
    have hne : t.user ≠ u := hnou v t hvt
    refine ⟨h1, ?_⟩
    show (upd st.byUser u none) t.user = some t
    unfold upd
    rw [if_neg hne]
    exact h2
  · intro x t hxt
    have hxt0 : (upd st.byUser u none) x = some t := hxt
    unfold upd at hxt0
    have hxu : x ≠ u := by
      intro he
      rw [if_pos he] at hxt0
      cases hxt0
    have hxt' : st.byUser x = some t := by
      rw [if_neg hxu] at hxt0
      exact hxt0
    obtain ⟨h1, h2⟩ := wfU x t hxt'
    have hne : t.value ≠ t0.value := by
      intro he
      rw [he, ht0v] at h2
      injection h2 with h3
      subst h3
      exact hxu (h1 ▸ ht0u)
    refine ⟨h1, ?_⟩
    show (upd st.byValue t0.value none) t.value = some t
    unfold upd
    rw [if_neg hne]
    exact h2
  · show (upd st.byUser u none) u = none
    unfold upd
    rw [if_pos rfl]

/-- A generation step with a fresh value preserves consistency of the
two token maps. -/
theorem tokenWF_genStep (st : TokenState) (u f : String) (now dur : Nat)
    (hwf : TokenWF st) (hf : st.byValue f = none) :
    TokenWF (genStep st u f now dur).2 := by
  cases h : st.byUser u with
  | none =>
    have hinv := invalPhase_of_byUser_none st u h
    have hnouser : ∀ v t, st.byValue v = some t → t.user ≠ u := by
      intro v t hvt heq
      have h2 := (hwf.1 v t hvt).2
      rw [heq, h] at h2
      cases h2
    show TokenWF ⟨(invalPhase st u).users, upd (invalPhase st u).byUser u _,
      upd (invalPhase st u).byValue f _⟩
    rw [hinv]
    exact tokenWF_insert st u f _ hwf rfl rfl h hf hnouser
  | some t0 =>
    have hinv := invalPhase_of_byUser_some st u t0 hwf h
    obtain ⟨hwf1, hu1, hnou1⟩ := tokenWF_erase st u t0 hwf h
    have hf1 : (upd st.byValue t0.value none) f = none := by
      unfold upd
      split
      · rfl
      · exact hf
    show TokenWF ⟨(invalPhase st u).users, upd (invalPhase st u).byUser u _,
      upd (invalPhase st u).byValue f _⟩
    rw [hinv]
    exact tokenWF_insert ⟨st.users, upd st.byUser u none, upd st.byValue t0.value none⟩
      u f _ hwf1 rfl rfl hu1 hf1 hnou1

/-- Consistency of the token maps is preserved along any sequence of
successful fresh-valued generate calls. -/
theorem genTrace_wf (u : String) : ∀ st ts stF, GenTrace u st ts stF →
    TokenWF st → TokenWF stF := by
  intro st ts stF htr
  induction htr with
  | nil st => exact id
  | cons st f now dur pr ts stF hf hgen htr2 ih =>
    intro hwf
    apply ih
    obtain ⟨hpr, _⟩ := tokenGenerate_ok_eq hgen
    rw [hpr]
    exact tokenWF_genStep st u f now dur hwf hf

/-- Consistent token maps hold at most one token per user. -/
theorem atMostOne_of_wf (st : TokenState) (hwf : TokenWF st) (u : String) :
    AtMostOneTokenFor u st := by
  intro v w t s hv hw htu hsu
  have h1 := hwf.1 v t hv
  have h2 := hwf.1 w s hw
  have h3 : st.byUser u = some t := by
    rw [← htu]
    exact h1.2
  have h4 : st.byUser u = some s := by
    rw [← hsu]
    exact h2.2
  rw [h3] at h4
  injection h4 with h5
  rw [← h1.1, ← h2.1, h5]

/-- An absent token value stays absent along a trace none of whose
generated tokens carries that value. -/
theorem genTrace_byValue_none_mono (u : String) :
    ∀ st ts stF, GenTrace u st ts stF → ∀ v, st.byValue v = none →
      (∀ t ∈ ts, t.value ≠ v) → stF.byValue v = none := by
  intro st ts stF htr
  induction htr with
  | nil st => exact fun v hv _ => hv
  | cons st f now dur pr ts stF hf hgen htr2 ih =>
    intro v hv hnot
    obtain ⟨hpr, _⟩ := tokenGenerate_ok_eq hgen
    have hne : v ≠ f := by
      intro he
      have := hnot pr.1 (List.mem_cons_self pr.1 ts)
      rw [hpr] at this
      exact this (he ▸ rfl)
    apply ih v
    · rw [hpr]
      exact genStep_byValue_none st u f v now dur hv hne
    · intro t ht
      exact hnot t (List.mem_cons_of_mem pr.1 ht)

/-- The freshly inserted token is the current token of the user right
after a generation step. -/
theorem genStep_byUser_self (st : TokenState) (u f : String) (now dur : Nat) :
    (genStep st u f now dur).2.byUser u = some (genStep st u f now dur).1 := by
  show (upd (invalPhase st u).byUser u (some _)) u = some _
  unfold upd
  rw [if_pos rfl]
  rfl

/-- The freshly inserted token value maps to the fresh token right
after a generation step. -/
theorem genStep_byValue_self (st : TokenState) (u f : String) (now dur : Nat) :
    (genStep st u f now dur).2.byValue f = some (genStep st u f now dur).1 := by
  show (upd (invalPhase st u).byValue f (some _)) f = some _
  unfold upd
  rw [if_pos rfl]
  rfl

/-- A generation step deletes the previous current token of the user
from the by-value map (the fresh value is distinct from it). -/
theorem genStep_kills_current (st : TokenState) (u f2 : String) (now dur : Nat)
    (t : Token) (hwf : TokenWF st) (hcur : st.byUser u = some t)
    (hf2 : st.byValue f2 = none) :
    (genStep st u f2 now dur).2.byValue t.value = none := by
  have hv : st.byValue t.value = some t := (hwf.2 u t hcur).2
  have hne : t.value ≠ f2 := by
    intro he
    rw [he, hf2] at hv
    cases hv
  have hinv := invalPhase_of_byUser_some st u t hwf hcur
  show (upd (invalPhase st u).byValue f2 _) t.value = none
  rw [hinv]
  show (upd (upd st.byValue t.value none) f2 _) t.value = none
  unfold upd
  rw [if_neg hne, if_pos rfl]

/-- Main induction for claim C2: along a trace of fresh, pairwise
distinct generate calls for a user, the final by-user entry is the
last generated token and every earlier generated token value is absent
from the final by-value map. -/
theorem genTrace_master (u : String) :
    ∀ st ts stF, GenTrace u st ts stF → TokenWF st →
      (ts.map Token.value).Nodup →
      (∀ tl, ts.getLast? = some tl → stF.byUser u = some tl)
      ∧ (∀ t' ∈ ts.dropLast, stF.byValue t'.value = none) := by
  intro st ts stF htr
  induction htr with
  | nil st =>
    intro _ _
    constructor
    · intro tl h
      cases h
    · intro t' ht'
      simp at ht'
  | cons st f now dur pr ts stF hf hgen htr2 ih =>
    intro hwf hnd
    obtain ⟨hpr, _⟩ := tokenGenerate_ok_eq hgen
    have hwf2 : TokenWF pr.2 := by
      rw [hpr]
      exact tokenWF_genStep st u f now dur hwf hf
    have hval : pr.1.value = f := by
      rw [hpr]
      rfl
    cases ts with
    | nil =>
      cases htr2
      constructor
      · intro tl h
        have htl : tl = pr.1 := by
          simp at h
          exact h.symm
        subst htl
        rw [hpr]
        exact genStep_byUser_self st u f now dur
      · intro t' ht'
        simp at ht'
    | cons t2 ts2 =>
      have hnd' : ((t2 :: ts2).map Token.value).Nodup := by
        rw [List.map_cons] at hnd
        exact (List.nodup_cons.mp hnd).2
      have hfnot : f ∉ (t2 :: ts2).map Token.value := by
        rw [List.map_cons, hval] at hnd
        exact (List.nodup_cons.mp hnd).1
      obtain ⟨ihLast, ihDrop⟩ := ih hwf2 hnd'
      constructor
      · intro tl h
        apply ihLast
        rw [← h]
        exact List.getLast?_cons_cons.symm
      · intro t' ht'
        rw [show (pr.1 :: t2 :: ts2).dropLast = pr.1 :: (t2 :: ts2).dropLast from rfl]
          at ht'
        cases List.mem_cons.mp ht' with
        | inr hmem => exact ihDrop t' hmem
        | inl heq =>
          subst heq
          rw [hval]
          cases htr2 with
          | cons _ f2 now2 dur2 pr2 _ _ hf2 hgen2 htr3 =>
            obtain ⟨hpr2, _⟩ := tokenGenerate_ok_eq hgen2
            have hcur : pr.2.byUser u = some pr.1 := by
              rw [hpr]
              exact genStep_byUser_self st u f now dur
            have hkill : pr2.2.byValue pr.1.value = none := by
              rw [hpr2]
              exact genStep_kills_current pr.2 u f2 now2 dur2 pr.1 hwf2 hcur hf2
            have hnotin : ∀ t ∈ ts2, t.value ≠ pr.1.value := by
              intro t ht he
              apply hfnot
              rw [← hval, ← he]
              exact List.mem_map_of_mem Token.value (List.mem_cons_of_mem pr2.1 ht)
            rw [← hval]
            exact genTrace_byValue_none_mono u pr2.2 ts2 stF htr3 pr.1.value hkill hnotin

/-- Claim C2: for every username and every sequence of successful
TokenGenerate calls for it (each call requires the user to exist, and
the random values are fresh and pairwise distinct, reflecting their
entropy), starting from consistent token maps: TokenRetrieveByUser
returns exactly the token of the latest call; for every token of an
earlier call, TokenRetrieveByToken on its value returns the
NoSuchToken error and TokenEvaluate on its value returns false at any
time; and after every such sequence the maps are consistent and hold
at most one token per username. -/
theorem c2_generate_supersedes (u : String) (st0 stF : TokenState)
    (toks : List Token) (tl : Token)
    (hwf : TokenWF st0) (htr : GenTrace u st0 toks stF)
    (hnd : (toks.map Token.value).Nodup) (hlast : toks.getLast? = some tl) :
    tokenRetrieveByUser stF u = Except.ok tl
  ∧ (∀ t' ∈ toks.dropLast,
      tokenRetrieveByToken stF t'.value = Except.error Errs.noSuchToken
      ∧ ∀ now, tokenEvaluate stF t'.value now = false)
  ∧ (∀ ts st', GenTrace u st0 ts st' →
      TokenWF st' ∧ ∀ u', AtMostOneTokenFor u' st') := by
  obtain ⟨hLast, hDrop⟩ := genTrace_master u st0 toks stF htr hwf hnd
  refine ⟨?_, ?_, ?_⟩
  · unfold tokenRetrieveByUser
    rw [hLast tl hlast]
  · intro t' ht'
    have h := hDrop t' ht'
    constructor
    · unfold tokenRetrieveByToken
      rw [h]
    · intro now
      unfold tokenEvaluate tokenRetrieveByToken
      rw [h]
  · intro ts st' htr'
    have hwf' := genTrace_wf u st0 ts st' htr' hwf
    exact ⟨hwf', fun u' => atMostOne_of_wf st' hwf' u'⟩

/-- A token state with one existing user and empty token maps. -/
def demoTokState : TokenState := ⟨["alice"], fun _ => none, fun _ => none⟩

/-- First demonstration generate call for alice. -/
def demoGen1 : Token × TokenState := genStep demoTokState "alice" "tokenA" 0 10

/-- Second demonstration generate call for alice, superseding the
first. -/
def demoGen2 : Token × TokenState := genStep demoGen1.2 "alice" "tokenB" 3 10

/-- Witness for claim C2 at a concrete two-call generate sequence for
alice: after the second call, retrieval by user returns the second
token, while the first token's value retrieves NoSuchToken and
evaluates false. -/
theorem c2_witness :
    tokenRetrieveByUser demoGen2.2 "alice" = Except.ok demoGen2.1
  ∧ tokenRetrieveByToken demoGen2.2 demoGen1.1.value = Except.error Errs.noSuchToken
  ∧ tokenEvaluate demoGen2.2 demoGen1.1.value 5 = false
  ∧ TokenWF demoGen2.2 ∧ AtMostOneTokenFor "alice" demoGen2.2 := by
  have hwf : TokenWF demoTokState :=
    ⟨fun v t h => Option.noConfusion h, fun a t h => Option.noConfusion h⟩
  have htr : GenTrace "alice" demoTokState [demoGen1.1, demoGen2.1] demoGen2.2 := by
    refine GenTrace.cons demoTokState "tokenA" 0 10 demoGen1 [demoGen2.1] demoGen2.2
      rfl rfl ?_
    refine GenTrace.cons demoGen1.2 "tokenB" 3 10 demoGen2 [] demoGen2.2
      ?_ rfl (GenTrace.nil demoGen2.2)
    rfl
  have h := c2_generate_supersedes "alice" demoTokState demoGen2.2
    [demoGen1.1, demoGen2.1] demoGen2.1 hwf htr (by decide) rfl
  have hmem : demoGen1.1 ∈ ([demoGen1.1, demoGen2.1] : List Token).dropLast := by
    simp
  have htrpair := h.2.2 [demoGen1.1, demoGen2.1] demoGen2.2 htr
  exact ⟨h.1, (h.2.1 demoGen1.1 hmem).1, (h.2.1 demoGen1.1 hmem).2 5,
    htrpair.1, htrpair.2 "alice"⟩

end Cog2
